import Mathlib

/-!
Verification of the mosaic core of
`images-to-random-mosaic-video-generator.py` against its design
specification.

The embedding models the two core functions of the source file,
`extract_tiles_from_image` and `create_mosaic`, over a pure value
representation of numpy RGB arrays:

* An `Img` is a rectangular pixel buffer: an explicit width field `w`
  together with a row-major list of rows.  The explicit width keeps the
  numpy shape information of zero-height slices (a `(0, k, 3)` array knows
  its width `k`).  A pixel is abstracted to a single `Nat` sample: the three
  8-bit channels of the source travel together through every slice,
  assignment and shuffle, so one abstract sample per pixel is faithful for
  every property considered here.
* numpy slicing `img[y0:y1, x0:x1].copy()` is `readRect` (slices clamp to
  the array bounds, and `.copy()` is the identity on values).
* numpy assignment `new_img[y0:y1, x0:x1] = tile` is `writeRect`.
* `random.shuffle` of the index list is modelled by an explicit stream
  `shuffles : Nat → List Nat` giving the permutation drawn in each pass;
  `random.choice` by a stream `choices : Nat → Nat → Nat` giving the pool
  index drawn for pass `k` and flat cell index `i`.
* Exceptions escaping `create_mosaic` (in the source: only the `cv2.error`
  raised by `cv2.resize` on a degenerate tile) are the `Except.error`
  branch; the Python value `None` returned for a missing target is the
  `none` of the result's `Option Img`.
* A pool entry that is not a decodable array (whose tile extraction would
  raise and be swallowed by the `try/except` of lines 70-74) is modelled as
  a `none` entry of the pool list.
-/

/-- Pixels are abstracted to one sample per pixel. -/
abbrev Pix := Nat

/-- A numpy `(h, w, 3)` RGB array: explicit width plus row-major rows.
A value is well-formed (`Wf`) when every row has length `w`. -/
structure Img where
  w : Nat
  rows : List (List Pix)
deriving DecidableEq, Repr

/-- `img.shape[0]`. -/
def shapeH (img : Img) : Nat := img.rows.length

/-- `img.shape[1]`. -/
def shapeW (img : Img) : Nat := img.w

/-- Well-formedness: each row really has `w` pixels, as in any numpy array. -/
def Wf (img : Img) : Prop := ∀ r ∈ img.rows, r.length = img.w

instance (img : Img) : Decidable (Wf img) := by
  unfold Wf; infer_instance

/-- The empty array (used as an out-of-range default; never produced by the
modelled code on the paths the theorems speak about). -/
def emptyImg : Img := ⟨0, []⟩

/-- Pixel lookup with a default, `img[y][x]`. -/
def px (img : Img) (y x : Nat) : Pix := (img.rows.getD y []).getD x 0

/-- `np.zeros_like` for an `(h, w, 3)` array. -/
def zerosImg (h w : Nat) : Img := ⟨w, List.replicate h (List.replicate w 0)⟩

/-- numpy slice-and-copy `img[y0:y1, x0:x1].copy()`.  Out-of-range slice
limits clamp exactly as in numpy. -/
def readRect (img : Img) (y0 y1 x0 x1 : Nat) : Img :=
  ⟨min x1 img.w - min x0 img.w,
   ((img.rows.drop y0).take (y1 - y0)).map (fun r => (r.drop x0).take (x1 - x0))⟩

/-- One row of a rectangle assignment: overwrite `row[x0 : x0+t.length]`
with `t`. -/
def writeRow (row : List Pix) (x0 : Nat) (t : List Pix) : List Pix :=
  row.take x0 ++ t ++ row.drop (x0 + t.length)

/-- numpy assignment `img[y0:y0+tile.h, x0:x0+tile.w] = tile` (the source
only assigns tiles whose shape equals the destination rectangle's). -/
def writeRect (img : Img) (y0 x0 : Nat) (tile : Img) : Img :=
  ⟨img.w,
   img.rows.take y0 ++
     List.zipWith (fun r t => writeRow r x0 t)
       ((img.rows.drop y0).take tile.rows.length) tile.rows ++
     img.rows.drop (y0 + tile.rows.length)⟩

/-- Boundary list of source lines 35-36 and 62-63:
`[0] + [(len * i) // grid_n for i in range(1, grid_n)] + [len]`.
For `grid_n ≤ 1` the middle comprehension is empty, exactly as in Python,
so the `toNat` conversions never distort a reachable division. -/
def bnds (len : Nat) (grid_n : Int) : List Nat :=
  [0] ++ (List.range (grid_n - 1).toNat).map (fun i => len * (i + 1) / grid_n.toNat) ++ [len]

/-- Source lines 32-44, `extract_tiles_from_image`: slice the image into the
row-major list of its `grid_n * grid_n` cell buffers (each a copy).  For
`grid_n ≤ 0` both Python loops are empty and the function returns `[]`. -/
def extract_tiles_from_image (img : Img) (grid_n : Int) : List Img :=
  let ys := bnds (shapeH img) grid_n
  let xs := bnds (shapeW img) grid_n
  (List.range grid_n.toNat).flatMap (fun ry =>
    (List.range grid_n.toNat).map (fun rx =>
      readRect img (ys.getD ry 0) (ys.getD (ry + 1) 0) (xs.getD rx 0) (xs.getD (rx + 1) 0)))

/-- Model of `cv2.resize(src, (tw, th), interpolation=cv2.INTER_LINEAR)`:
OpenCV raises (here: `none`) when the source or the destination is empty;
otherwise it returns a buffer of shape `(th, tw)`.  The interpolated values
are sampled from the source by coordinate scaling; the exact floating-point
bilinear weights are outside the embedding and no claim depends on them. -/
def cvResize (src : Img) (tw th : Nat) : Option Img :=
  if shapeH src = 0 ∨ shapeW src = 0 ∨ th = 0 ∨ tw = 0 then none
  else some ⟨tw, (List.range th).map (fun y =>
    (List.range tw).map (fun x => px src (y * shapeH src / th) (x * shapeW src / tw)))⟩

/-- The body of the per-cell write loop (source lines 103-110 and 116-122):
compute the cell rectangle of flat index `idx`, resize the selected tile
when its shape differs from the cell's, and write it into the buffer.
A failing `cv2.resize` aborts the call. -/
def cellStep (ys xs : List Nat) (n : Nat) (pick : Nat → Img) (acc : Img)
    (idx : Nat) : Except Unit Img :=
  let y0 := ys.getD (idx / n) 0
  let y1 := ys.getD (idx / n + 1) 0
  let x0 := xs.getD (idx % n) 0
  let x1 := xs.getD (idx % n + 1) 0
  let src := pick idx
  if shapeH src = y1 - y0 ∧ shapeW src = x1 - x0 then
    Except.ok (writeRect acc y0 x0 src)
  else
    match cvResize src (x1 - x0) (y1 - y0) with
    | none => Except.error ()
    | some r => Except.ok (writeRect acc y0 x0 r)

/-- The per-cell write loop shared by both modes of `create_mosaic`
(source lines 101-110 and 114-122): walk the cells in row-major order over
a fresh `np.zeros_like` buffer. -/
def cellLoop (h w : Nat) (n : Nat) (ys xs : List Nat) (pick : Nat → Img) :
    Except Unit Img :=
  (List.range (n * n)).foldlM (cellStep ys xs n pick) (zerosImg h w)

/-- Source lines 68-74: gather the tiles of every pool image, skipping any
entry whose extraction raises (modelled as a `none` entry, e.g. an object
that is not a decoded array). -/
def poolTilesOf (ps : List (Option Img)) (grid_n : Int) : List Img :=
  ps.flatMap (fun pe => match pe with
    | none => []
    | some p => extract_tiles_from_image p grid_n)

/-- Source lines 66-77: the pool-tile collection actually used, `none`
when `pool_images` is falsy (absent or `[]`) or when the gathered
collection is empty (the silent fallback of lines 76-77). -/
def poolTilesSel (pool_images : Option (List (Option Img))) (grid_n : Int) :
    Option (List Img) :=
  match pool_images with
  | none => none
  | some ps =>
      if ps.isEmpty then none
      else if (poolTilesOf ps grid_n).isEmpty then none
      else some (poolTilesOf ps grid_n)

/-- One shuffle pass of `create_mosaic` (the body of the loop at source
lines 82-123), acting on the current working image `out`:
in no-pool mode re-slice `out` and place its tiles by the drawn
permutation; in pool mode fill every cell with an independently drawn pool
tile.  `k` is the pass number, used to index the random streams. -/
def mosaicPass (grid_n : Int) (ys xs : List Nat) (h w : Nat)
    (pool_tiles : Option (List Img)) (shuffles : Nat → List Nat)
    (choices : Nat → Nat → Nat) (k : Nat) (out : Img) : Except Unit Img :=
  match pool_tiles with
  | none =>
      let tiles := extract_tiles_from_image out grid_n
      let perm := shuffles k
      cellLoop h w grid_n.toNat ys xs (fun idx => tiles.getD (perm.getD idx 0) emptyImg)
  | some pts =>
      cellLoop h w grid_n.toNat ys xs (fun idx => pts.getD (choices k idx) emptyImg)

/-- Source lines 47-125, `create_mosaic`: returns `ok none` for a missing
target, a copy of the target for `grid_n ≤ 1`, and otherwise runs
`max 1 iterations` sequential passes starting from a copy of the target.
`error` is an exception escaping the call (only `cv2.resize` can raise on
the modelled paths). -/
def create_mosaic (image : Option Img) (grid_n : Int) (iterations : Int)
    (pool_images : Option (List (Option Img))) (shuffles : Nat → List Nat)
    (choices : Nat → Nat → Nat) : Except Unit (Option Img) :=
  match image with
  | none => Except.ok none
  | some img =>
      if grid_n ≤ 1 then Except.ok (some img)
      else
        let ys := bnds (shapeH img) grid_n
        let xs := bnds (shapeW img) grid_n
        let pool_tiles := poolTilesSel pool_images grid_n
        (((List.range (max 1 iterations).toNat).foldlM
          (fun acc k =>
            mosaicPass grid_n ys xs (shapeH img) (shapeW img) pool_tiles shuffles choices k acc)
          img).map some)

/-- Sequential-pass reference form for the iteration claim: `runPasses m k`
applies passes `k, k+1, …, k+m-1` in order, each to the previous output. -/
def runPasses (grid_n : Int) (ys xs : List Nat) (h w : Nat)
    (pool_tiles : Option (List Img)) (shuffles : Nat → List Nat)
    (choices : Nat → Nat → Nat) : Nat → Nat → Img → Except Unit Img
  | 0, _, out => Except.ok out
  | m + 1, k, out =>
      (mosaicPass grid_n ys xs h w pool_tiles shuffles choices k out).bind
        (runPasses grid_n ys xs h w pool_tiles shuffles choices m (k + 1))

/-! ### Generic list index lemmas -/

theorem lGetD_take {α : Type} (l : List α) (n i : Nat) (d : α) (h : i < n) :
    (l.take n).getD i d = l.getD i d := by
  simp [List.getD_eq_getElem?_getD, List.getElem?_take, h]

theorem lGetD_drop {α : Type} (l : List α) (n i : Nat) (d : α) :
    (l.drop n).getD i d = l.getD (n + i) d := by
  simp [List.getD_eq_getElem?_getD, List.getElem?_drop]

theorem lGetD_map {α β : Type} (f : α → β) (l : List α) (i : Nat) (d : β) (d' : α)
    (h : i < l.length) : (l.map f).getD i d = f (l.getD i d') := by
  rw [List.getD_eq_getElem (l.map f) d (show i < (l.map f).length by simpa using h),
    List.getD_eq_getElem l d' h]
  exact List.getElem_map f

theorem lGetD_zipWith {α β γ : Type} (f : α → β → γ) (l₁ : List α) (l₂ : List β)
    (i : Nat) (d : γ) (d₁ : α) (d₂ : β) (h₁ : i < l₁.length) (h₂ : i < l₂.length) :
    (List.zipWith f l₁ l₂).getD i d = f (l₁.getD i d₁) (l₂.getD i d₂) := by
  rw [List.getD_eq_getElem (List.zipWith f l₁ l₂) d
      (show i < (List.zipWith f l₁ l₂).length by simp [List.length_zipWith]; omega),
    List.getD_eq_getElem l₁ d₁ h₁, List.getD_eq_getElem l₂ d₂ h₂]
  exact List.getElem_zipWith

theorem lGetD_range (n i : Nat) (d : Nat) (h : i < n) :
    (List.range n).getD i d = i := by
  rw [List.getD_eq_getElem (List.range n) d (show i < (List.range n).length by simpa using h)]
  exact List.getElem_range i _

theorem lGetD_replicate {α : Type} (n i : Nat) (a d : α) :
    (List.replicate n a).getD i d = if i < n then a else d := by
  simp only [List.getD_eq_getElem?_getD, List.getElem?_replicate]
  split <;> simp

theorem lGetD_range_map {α : Type} (l : List α) (d : α) :
    (List.range l.length).map (fun i => l.getD i d) = l := by
  apply List.ext_getElem
  · simp
  · intro n h₁ h₂
    rw [List.getElem_map, List.getElem_range, List.getD_eq_getElem l d h₂]

theorem flatMap_range_map {α : Type} (M N : Nat) (g : Nat → Nat → α) :
    (List.range M).flatMap (fun i => (List.range N).map (g i)) =
      (List.range (M * N)).map (fun k => g (k / N) (k % N)) := by
  induction M with
  | zero => simp
  | succ M ih =>
      rw [List.range_succ, List.flatMap_append, ih, Nat.succ_mul, List.range_add,
        List.map_append]
      congr 1
      rw [List.flatMap_singleton, List.map_map]
      apply List.ext_getElem
      · simp
      · intro i h₁ h₂
        simp only [List.getElem_map, List.getElem_range, Function.comp]
        have hi : i < N := by simpa using h₁
        have hN : 0 < N := by omega
        have h1 : (M * N + i) / N = M := by
          rw [Nat.add_comm, Nat.mul_comm, Nat.add_mul_div_left _ _ hN,
            Nat.div_eq_of_lt hi, Nat.zero_add]
        have h2 : (M * N + i) % N = i := by
          rw [Nat.add_comm, Nat.add_mul_mod_self_right, Nat.mod_eq_of_lt hi]
        rw [h1, h2]

/-! ### Shape, well-formedness and pixel lemmas for the buffer operations -/

theorem wf_zeros (h w : Nat) : Wf (zerosImg h w) := by
  intro r hr
  simp [zerosImg] at hr
  simp [hr.2, zerosImg]

theorem shapeH_zeros (h w : Nat) : shapeH (zerosImg h w) = h := by
  simp [shapeH, zerosImg]

theorem shapeW_zeros (h w : Nat) : shapeW (zerosImg h w) = w := rfl

theorem wf_rows_getD (img : Img) (hw : Wf img) (y : Nat) (hy : y < shapeH img) :
    (img.rows.getD y []).length = img.w := by
  rw [List.getD_eq_getElem img.rows [] hy]
  exact hw _ (List.getElem_mem hy)

theorem length_writeRow (r t : List Pix) (x0 : Nat) (hb : x0 + t.length ≤ r.length) :
    (writeRow r x0 t).length = r.length := by
  simp [writeRow, List.length_append, List.length_take, List.length_drop]
  omega

theorem writeRow_getD (r t : List Pix) (x0 x : Nat) (hb : x0 + t.length ≤ r.length) :
    (writeRow r x0 t).getD x 0 =
      if x0 ≤ x ∧ x < x0 + t.length then t.getD (x - x0) 0 else r.getD x 0 := by
  have hlt : (r.take x0).length = x0 := by simp [List.length_take]; omega
  have hAlen : (r.take x0 ++ t).length = x0 + t.length := by
    simp [List.length_append, hlt]
  unfold writeRow
  rcases Nat.lt_or_ge x x0 with hx | hx
  · rw [List.getD_append _ _ _ x (by omega), List.getD_append _ _ _ x (by omega),
      lGetD_take _ _ _ _ hx]
    have : ¬(x0 ≤ x ∧ x < x0 + t.length) := by omega
    simp [this]
  · rcases Nat.lt_or_ge x (x0 + t.length) with hx2 | hx2
    · rw [List.getD_append _ _ _ x (by omega),
        List.getD_append_right _ _ _ x (by omega), hlt]
      simp [hx, hx2]
    · rw [List.getD_append_right _ _ _ x (by omega), hAlen, lGetD_drop]
      have : x0 + t.length + (x - (x0 + t.length)) = x := by omega
      rw [this]
      have : ¬(x0 ≤ x ∧ x < x0 + t.length) := by omega
      simp [this]

theorem writeRect_rows_length (acc tile : Img) (y0 x0 : Nat)
    (hb : y0 + shapeH tile ≤ shapeH acc) :
    (writeRect acc y0 x0 tile).rows.length = acc.rows.length := by
  simp only [shapeH] at hb
  simp [writeRect, List.length_append, List.length_take, List.length_zipWith,
    List.length_drop]
  omega

theorem shapeH_writeRect (acc tile : Img) (y0 x0 : Nat)
    (hb : y0 + shapeH tile ≤ shapeH acc) :
    shapeH (writeRect acc y0 x0 tile) = shapeH acc :=
  writeRect_rows_length acc tile y0 x0 hb

theorem shapeW_writeRect (acc tile : Img) (y0 x0 : Nat) :
    shapeW (writeRect acc y0 x0 tile) = shapeW acc := rfl

theorem writeRect_rows_getD (acc tile : Img) (y0 x0 y : Nat)
    (hb : y0 + shapeH tile ≤ shapeH acc) :
    (writeRect acc y0 x0 tile).rows.getD y [] =
      if y0 ≤ y ∧ y < y0 + shapeH tile then
        writeRow (acc.rows.getD y []) x0 (tile.rows.getD (y - y0) [])
      else acc.rows.getD y [] := by
  simp only [shapeH] at hb ⊢
  have hlt : (acc.rows.take y0).length = y0 := by simp [List.length_take]; omega
  have hzl : (List.zipWith (fun r t => writeRow r x0 t)
      ((acc.rows.drop y0).take tile.rows.length) tile.rows).length
      = tile.rows.length := by
    simp [List.length_zipWith, List.length_take, List.length_drop]
    omega
  have hAlen : (acc.rows.take y0 ++
      List.zipWith (fun r t => writeRow r x0 t)
        ((acc.rows.drop y0).take tile.rows.length) tile.rows).length
      = y0 + tile.rows.length := by
    simp [List.length_append, hlt, hzl]
  unfold writeRect
  rcases Nat.lt_or_ge y y0 with hy | hy
  · simp only
    rw [List.getD_append _ _ _ y (by omega), List.getD_append _ _ _ y (by omega),
      lGetD_take _ _ _ _ hy]
    have : ¬(y0 ≤ y ∧ y < y0 + tile.rows.length) := by omega
    simp [this]
  · rcases Nat.lt_or_ge y (y0 + tile.rows.length) with hy2 | hy2
    · simp only
      rw [List.getD_append _ _ _ y (by omega),
        List.getD_append_right _ _ _ y (by omega), hlt,
        lGetD_zipWith _ _ _ _ _ [] [] (by simp [List.length_take, List.length_drop]; omega)
          (by omega),
        lGetD_take _ _ _ _ (by omega : y - y0 < tile.rows.length), lGetD_drop]
      have : y0 + (y - y0) = y := by omega
      rw [this]
      simp [hy, hy2]
    · simp only
      rw [List.getD_append_right _ _ _ y (by omega), hAlen, lGetD_drop]
      have : y0 + tile.rows.length + (y - (y0 + tile.rows.length)) = y := by omega
      rw [this]
      have : ¬(y0 ≤ y ∧ y < y0 + tile.rows.length) := by omega
      simp [this]

theorem wf_writeRect (acc tile : Img) (y0 x0 : Nat) (hacc : Wf acc) (htile : Wf tile)
    (hy : y0 + shapeH tile ≤ shapeH acc) (hx : x0 + shapeW tile ≤ shapeW acc) :
    Wf (writeRect acc y0 x0 tile) := by
  intro r hr
  rw [List.mem_iff_getElem] at hr
  obtain ⟨y, hylt, hreq⟩ := hr
  rw [writeRect_rows_length acc tile y0 x0 hy] at hylt
  have : r = (writeRect acc y0 x0 tile).rows.getD y [] := by
    rw [List.getD_eq_getElem _ []
      (by rw [writeRect_rows_length acc tile y0 x0 hy]; exact hylt), hreq]
  rw [this, writeRect_rows_getD acc tile y0 x0 y hy]
  show _ = acc.w
  split
  · next hcase =>
      rw [length_writeRow]
      · exact wf_rows_getD acc hacc y hylt
      · rw [wf_rows_getD acc hacc y hylt, wf_rows_getD tile htile (y - y0) (by simp only [shapeH] at hcase ⊢; omega)]
        exact hx
  · exact wf_rows_getD acc hacc y hylt

theorem px_writeRect (acc tile : Img) (y0 x0 : Nat) (hacc : Wf acc) (htile : Wf tile)
    (hy : y0 + shapeH tile ≤ shapeH acc) (hx : x0 + shapeW tile ≤ shapeW acc)
    (y x : Nat) :
    px (writeRect acc y0 x0 tile) y x =
      if y0 ≤ y ∧ y < y0 + shapeH tile ∧ x0 ≤ x ∧ x < x0 + shapeW tile then
        px tile (y - y0) (x - x0)
      else px acc y x := by
  unfold px
  rw [writeRect_rows_getD acc tile y0 x0 y hy]
  simp only [shapeW] at hx ⊢
  rcases Nat.lt_or_ge y y0 with hy1 | hy1
  · have h1 : ¬(y0 ≤ y ∧ y < y0 + shapeH tile) := by omega
    have h2 : ¬(y0 ≤ y ∧ y < y0 + shapeH tile ∧ x0 ≤ x ∧ x < x0 + tile.w) := by omega
    simp [h1, h2]
  · rcases Nat.lt_or_ge y (y0 + shapeH tile) with hy2 | hy2
    · have htl : (tile.rows.getD (y - y0) []).length = tile.w :=
        wf_rows_getD tile htile (y - y0) (by simp only [shapeH] at hy2 ⊢; omega)
      have h1 : y0 ≤ y ∧ y < y0 + shapeH tile := ⟨hy1, hy2⟩
      rw [if_pos h1, writeRow_getD _ _ _ _
        (by rw [wf_rows_getD acc hacc y (by omega), htl]; exact hx), htl]
      rcases Nat.lt_or_ge x x0 with hx1 | hx1
      · have h2 : ¬(x0 ≤ x ∧ x < x0 + tile.w) := by omega
        have h3 : ¬(y0 ≤ y ∧ y < y0 + shapeH tile ∧ x0 ≤ x ∧ x < x0 + tile.w) := by omega
        simp [h2, h3]
      · rcases Nat.lt_or_ge x (x0 + tile.w) with hx2 | hx2
        · have h2 : x0 ≤ x ∧ x < x0 + tile.w := ⟨hx1, hx2⟩
          have h3 : y0 ≤ y ∧ y < y0 + shapeH tile ∧ x0 ≤ x ∧ x < x0 + tile.w :=
            ⟨hy1, hy2, hx1, hx2⟩
          simp [h2, h3]
        · have h2 : ¬(x0 ≤ x ∧ x < x0 + tile.w) := by omega
          have h3 : ¬(y0 ≤ y ∧ y < y0 + shapeH tile ∧ x0 ≤ x ∧ x < x0 + tile.w) := by omega
          simp [h2, h3]
    · have h1 : ¬(y0 ≤ y ∧ y < y0 + shapeH tile) := by omega
      have h2 : ¬(y0 ≤ y ∧ y < y0 + shapeH tile ∧ x0 ≤ x ∧ x < x0 + tile.w) := by omega
      simp [h1, h2]

theorem shapeH_readRect (img : Img) (y0 y1 x0 x1 : Nat) :
    shapeH (readRect img y0 y1 x0 x1) = min (y1 - y0) (shapeH img - y0) := by
  simp [shapeH, readRect, List.length_take, List.length_drop]

theorem shapeW_readRect (img : Img) (y0 y1 x0 x1 : Nat) :
    shapeW (readRect img y0 y1 x0 x1) = min x1 img.w - min x0 img.w := rfl

theorem wf_readRect (img : Img) (y0 y1 x0 x1 : Nat) (himg : Wf img) :
    Wf (readRect img y0 y1 x0 x1) := by
  intro r hr
  simp only [readRect, List.mem_map] at hr
  obtain ⟨r0, hr0, hreq⟩ := hr
  have hr0len : r0.length = img.w :=
    himg r0 (List.mem_of_mem_drop (List.mem_of_mem_take hr0))
  subst hreq
  simp [readRect, List.length_take, List.length_drop, hr0len]
  omega

theorem px_readRect (img : Img) (y0 y1 x0 x1 u v : Nat)
    (hu : u < min (y1 - y0) (shapeH img - y0)) (hv : v < x1 - x0) :
    px (readRect img y0 y1 x0 x1) u v = px img (y0 + u) (x0 + v) := by
  unfold px readRect
  simp only
  rw [lGetD_map _ _ _ [] [] (by simp [List.length_take, List.length_drop, shapeH] at hu ⊢; omega),
    lGetD_take _ _ _ _ (by omega : u < y1 - y0), lGetD_drop,
    lGetD_take _ _ _ _ hv, lGetD_drop]

/-! ### Boundary list lemmas -/

theorem div_add_div_le (a b N : Nat) (hN : 0 < N) : a / N + b / N ≤ (a + b) / N := by
  rw [Nat.le_div_iff_mul_le hN, Nat.add_mul]
  exact Nat.add_le_add (Nat.div_mul_le_self a N) (Nat.div_mul_le_self b N)

theorem nat_lt_mul_div_succ (a b : Nat) (hb : 0 < b) : a < b * (a / b + 1) := by
  calc a = b * (a / b) + a % b := (Nat.div_add_mod a b).symm
    _ < b * (a / b) + b := Nat.add_lt_add_left (Nat.mod_lt a hb) _
    _ = b * (a / b + 1) := (Nat.mul_succ b (a / b)).symm

theorem bnds_length (len : Nat) (n : Int) (hn : 1 ≤ n) :
    (bnds len n).length = n.toNat + 1 := by
  simp [bnds, List.length_append, List.length_map, List.length_range]
  omega

theorem bnds_getD (len : Nat) (n : Int) (hn : 1 ≤ n) (i : Nat) (hi : i ≤ n.toNat) :
    (bnds len n).getD i 0 = len * i / n.toNat := by
  have hN : 1 ≤ n.toNat := by omega
  have hmidlen : ((List.range (n - 1).toNat).map
      (fun i => len * (i + 1) / n.toNat)).length = n.toNat - 1 := by
    simp only [List.length_map, List.length_range]
    omega
  have hleft : ([0] ++ (List.range (n - 1).toNat).map
      (fun i => len * (i + 1) / n.toNat)).length = n.toNat := by
    simp only [List.length_append, hmidlen, List.length_singleton]
    omega
  unfold bnds
  rcases Nat.lt_or_ge i n.toNat with hi2 | hi2
  · rw [List.getD_append _ _ _ i (by omega)]
    rcases Nat.eq_zero_or_pos i with hi0 | hi0
    · subst hi0
      simp
    · rw [List.getD_append_right _ _ _ i (by simp only [List.length_singleton]; omega),
        List.length_singleton,
        lGetD_map _ _ _ _ 0 (by simp only [List.length_range]; omega),
        lGetD_range _ _ _ (by omega)]
      have hfix : i - 1 + 1 = i := by omega
      rw [hfix]
  · have hieq : i = n.toNat := by omega
    rw [List.getD_append_right _ _ _ i (by omega), hleft, hieq]
    simp
    rw [Nat.mul_comm]
    exact (Nat.mul_div_cancel_left len (by omega)).symm

theorem bnds_getD_le (len : Nat) (n : Int) (i : Nat) : (bnds len n).getD i 0 ≤ len := by
  have hmem : ∀ v ∈ bnds len n, v ≤ len := by
    intro v hv
    simp only [bnds, List.mem_append, List.mem_singleton, List.mem_map,
      List.mem_range] at hv
    rcases hv with (hv | ⟨j, hj, hveq⟩) | hv
    · omega
    · subst hveq
      have h1 : j + 1 ≤ n.toNat := by omega
      calc len * (j + 1) / n.toNat ≤ len * n.toNat / n.toNat :=
            Nat.div_le_div_right (Nat.mul_le_mul_left len h1)
        _ = len := Nat.mul_div_cancel len (by omega)
    · omega
  rcases Nat.lt_or_ge i (bnds len n).length with hi | hi
  · rw [List.getD_eq_getElem _ 0 hi]
    exact hmem _ (List.getElem_mem hi)
  · rw [List.getD_eq_getElem?_getD, List.getElem?_eq_none (by omega)]
    simp

theorem bnds_mono (len : Nat) (n : Int) (hn : 1 ≤ n) (i : Nat) (hi : i < n.toNat) :
    (bnds len n).getD i 0 ≤ (bnds len n).getD (i + 1) 0 := by
  rw [bnds_getD len n hn i (by omega), bnds_getD len n hn (i + 1) (by omega)]
  exact Nat.div_le_div_right (Nat.mul_le_mul_left len (by omega))

theorem bnds_strict (len : Nat) (n : Int) (hn : 1 ≤ n) (hlen : n.toNat ≤ len)
    (i : Nat) (hi : i < n.toNat) :
    (bnds len n).getD i 0 < (bnds len n).getD (i + 1) 0 := by
  have hN : 0 < n.toNat := by omega
  rw [bnds_getD len n hn i (by omega), bnds_getD len n hn (i + 1) (by omega)]
  have h1 : 1 ≤ len / n.toNat := by
    rw [Nat.le_div_iff_mul_le hN, Nat.one_mul]
    exact hlen
  have h2 : len * i / n.toNat + len / n.toNat ≤ (len * i + len) / n.toNat :=
    div_add_div_le _ _ _ hN
  have h3 : len * i + len = len * (i + 1) := by ring
  rw [h3] at h2
  omega

theorem bnds_zero (len : Nat) (n : Int) : (bnds len n).getD 0 0 = 0 := by
  simp [bnds]

theorem bnds_last (len : Nat) (n : Int) (hn : 1 ≤ n) :
    (bnds len n).getD n.toNat 0 = len := by
  rw [bnds_getD len n hn n.toNat (by omega), Nat.mul_comm]
  exact Nat.mul_div_cancel_left len (by omega)

theorem bnds_cell_exists_unique (len : Nat) (n : Int) (hn : 1 ≤ n) (y : Nat)
    (hy : y < len) :
    ∃! r, r < n.toNat ∧ (bnds len n).getD r 0 ≤ y ∧ y < (bnds len n).getD (r + 1) 0 := by
  have hN : 0 < n.toNat := by omega
  have hlen : 0 < len := by omega
  -- characterize membership of y in cell r by two linear inequalities
  have key : ∀ r, r < n.toNat →
      (((bnds len n).getD r 0 ≤ y ∧ y < (bnds len n).getD (r + 1) 0) ↔
        (len * r < (y + 1) * n.toNat ∧ (y + 1) * n.toNat ≤ len * (r + 1))) := by
    intro r hr
    rw [bnds_getD len n hn r (by omega), bnds_getD len n hn (r + 1) (by omega)]
    constructor
    · rintro ⟨h1, h2⟩
      constructor
      · have : len * r / n.toNat < y + 1 := by omega
        rw [Nat.div_lt_iff_lt_mul hN] at this
        exact this
      · have : y + 1 ≤ len * (r + 1) / n.toNat := by omega
        rw [Nat.le_div_iff_mul_le hN] at this
        exact this
    · rintro ⟨h1, h2⟩
      constructor
      · have : len * r / n.toNat < y + 1 := by
          rw [Nat.div_lt_iff_lt_mul hN]
          exact h1
        omega
      · have : y + 1 ≤ len * (r + 1) / n.toNat := by
          rw [Nat.le_div_iff_mul_le hN]
          exact h2
        omega
  set t := (y + 1) * n.toNat with ht
  have htpos : 0 < t := by positivity
  set r0 := (t - 1) / len with hr0
  have hr0lt : r0 < n.toNat := by
    rw [hr0, Nat.div_lt_iff_lt_mul hlen]
    have : t ≤ len * n.toNat := by
      rw [ht]
      exact Nat.mul_le_mul_right n.toNat (by omega)
    have h4 : len * n.toNat = n.toNat * len := Nat.mul_comm _ _
    omega
  have hleft : len * r0 < t := by
    have h5 : len * r0 ≤ t - 1 := by
      rw [hr0, Nat.mul_comm]
      exact Nat.div_mul_le_self (t - 1) len
    omega
  have hright : t ≤ len * (r0 + 1) := by
    have h6 := nat_lt_mul_div_succ (t - 1) len hlen
    rw [← hr0] at h6
    omega
  refine ⟨r0, ⟨hr0lt, (key r0 hr0lt).2 ⟨hleft, hright⟩⟩, ?_⟩
  rintro r' ⟨hr'lt, hr'cell⟩
  have h7 := (key r' hr'lt).1 hr'cell
  by_contra hne
  rcases Nat.lt_or_ge r' r0 with hlt | hge
  · have : len * (r' + 1) ≤ len * r0 := Nat.mul_le_mul_left len (by omega)
    omega
  · have : len * (r0 + 1) ≤ len * r' := Nat.mul_le_mul_left len (by omega)
    omega

/-! ### Image extensionality and Except fold machinery -/

theorem wf_empty : Wf emptyImg := by
  intro r hr
  simp [emptyImg] at hr

theorem img_ext (A B : Img) (hA : Wf A) (hB : Wf B) (hh : shapeH A = shapeH B)
    (hw : shapeW A = shapeW B)
    (hpx : ∀ y < shapeH A, ∀ x < shapeW A, px A y x = px B y x) : A = B := by
  have hw' : A.w = B.w := hw
  have hrows : A.rows = B.rows := by
    apply List.ext_getElem hh
    intro y h1 h2
    apply List.ext_getElem
    · rw [hA _ (List.getElem_mem h1), hB _ (List.getElem_mem h2), hw']
    · intro x hx1 hx2
      have hxw : x < shapeW A := by
        show x < A.w
        rw [← hA _ (List.getElem_mem h1)]
        exact hx1
      have hp := hpx y h1 x hxw
      unfold px at hp
      rw [List.getD_eq_getElem A.rows [] h1, List.getD_eq_getElem B.rows [] h2,
        List.getD_eq_getElem _ 0 hx1, List.getD_eq_getElem _ 0 hx2] at hp
      exact hp
  cases A
  cases B
  simp only at hw' hrows
  subst hw'
  subst hrows
  rfl

theorem except_bind_ok {β γ : Type} (b : β) (g : β → Except Unit γ) :
    ((Except.ok b : Except Unit β) >>= g) = g b := rfl

theorem except_bind_error {β γ : Type} (g : β → Except Unit γ) :
    ((Except.error () : Except Unit β) >>= g) = Except.error () := rfl

theorem foldlM_except_inv {α β : Type} (P : β → Prop) (f : β → α → Except Unit β)
    (L : List α) (hstep : ∀ acc x r, x ∈ L → P acc → f acc x = Except.ok r → P r) :
    ∀ acc r, P acc → L.foldlM f acc = Except.ok r → P r := by
  induction L with
  | nil =>
      intro acc r hP heq
      rw [List.foldlM_nil] at heq
      cases heq
      exact hP
  | cons x L ih =>
      intro acc r hP heq
      rw [List.foldlM_cons] at heq
      cases hfx : f acc x with
      | error e =>
          rw [hfx] at heq
          cases e
          rw [except_bind_error] at heq
          cases heq
      | ok b =>
          rw [hfx, except_bind_ok] at heq
          exact ih (fun acc' x' r' hm => hstep acc' x' r' (List.mem_cons_of_mem x hm))
            b r (hstep acc x b (List.mem_cons_self x L) hP hfx) heq

theorem foldlM_except_total {α β : Type} (P : β → Prop) (f : β → α → Except Unit β)
    (L : List α) (hstep : ∀ acc x, x ∈ L → P acc → ∃ r, f acc x = Except.ok r ∧ P r) :
    ∀ acc, P acc → ∃ r, L.foldlM f acc = Except.ok r ∧ P r := by
  induction L with
  | nil =>
      intro acc hP
      exact ⟨acc, by rw [List.foldlM_nil]; rfl, hP⟩
  | cons x L ih =>
      intro acc hP
      obtain ⟨b, hfx, hPb⟩ := hstep acc x (List.mem_cons_self x L) hP
      obtain ⟨r, hrest, hPr⟩ := ih
        (fun acc' x' hm => hstep acc' x' (List.mem_cons_of_mem x hm)) b hPb
      exact ⟨r, by rw [List.foldlM_cons, hfx, except_bind_ok]; exact hrest, hPr⟩

/-! ### Lemmas about `cvResize` and `extract_tiles_from_image` -/

theorem cvResize_some_spec (src : Img) (tw th : Nat) (rt : Img)
    (h : cvResize src tw th = some rt) : Wf rt ∧ shapeH rt = th ∧ shapeW rt = tw := by
  unfold cvResize at h
  split at h
  · cases h
  · cases h
    refine ⟨?_, by simp [shapeH, List.length_map, List.length_range], rfl⟩
    intro r hr
    simp only [List.mem_map, List.mem_range] at hr
    obtain ⟨y, hy, hreq⟩ := hr
    subst hreq
    simp [List.length_map, List.length_range]

theorem cvResize_isSome (src : Img) (tw th : Nat) (h1 : shapeH src ≠ 0)
    (h2 : shapeW src ≠ 0) (h3 : th ≠ 0) (h4 : tw ≠ 0) :
    ∃ rt, cvResize src tw th = some rt := by
  unfold cvResize
  rw [if_neg (by simp [h1, h2, h3, h4])]
  exact ⟨_, rfl⟩

theorem extract_eq_map (img : Img) (n : Int) :
    extract_tiles_from_image img n =
      (List.range (n.toNat * n.toNat)).map (fun idx =>
        readRect img ((bnds (shapeH img) n).getD (idx / n.toNat) 0)
          ((bnds (shapeH img) n).getD (idx / n.toNat + 1) 0)
          ((bnds (shapeW img) n).getD (idx % n.toNat) 0)
          ((bnds (shapeW img) n).getD (idx % n.toNat + 1) 0)) := by
  unfold extract_tiles_from_image
  exact flatMap_range_map n.toNat n.toNat _

theorem extract_length (img : Img) (n : Int) :
    (extract_tiles_from_image img n).length = n.toNat * n.toNat := by
  rw [extract_eq_map]
  simp [List.length_map, List.length_range]

theorem extract_getD (img : Img) (n : Int) (idx : Nat)
    (hidx : idx < n.toNat * n.toNat) :
    (extract_tiles_from_image img n).getD idx emptyImg =
      readRect img ((bnds (shapeH img) n).getD (idx / n.toNat) 0)
        ((bnds (shapeH img) n).getD (idx / n.toNat + 1) 0)
        ((bnds (shapeW img) n).getD (idx % n.toNat) 0)
        ((bnds (shapeW img) n).getD (idx % n.toNat + 1) 0) := by
  rw [extract_eq_map,
    lGetD_map _ _ _ _ 0 (by simp only [List.length_range]; omega),
    lGetD_range _ _ _ hidx]

theorem wf_extract_mem (img : Img) (n : Int) (himg : Wf img) :
    ∀ t ∈ extract_tiles_from_image img n, Wf t := by
  intro t ht
  rw [extract_eq_map] at ht
  simp only [List.mem_map, List.mem_range] at ht
  obtain ⟨idx, _, hreq⟩ := ht
  rw [← hreq]
  exact wf_readRect _ _ _ _ _ himg

theorem wf_extract_getD (img : Img) (n : Int) (himg : Wf img) (j : Nat) :
    Wf ((extract_tiles_from_image img n).getD j emptyImg) := by
  rcases Nat.lt_or_ge j (extract_tiles_from_image img n).length with hj | hj
  · rw [List.getD_eq_getElem _ emptyImg hj]
    exact wf_extract_mem img n himg _ (List.getElem_mem hj)
  · rw [List.getD_eq_getElem?_getD, List.getElem?_eq_none (by omega)]
    exact wf_empty

theorem getD_wf (l : List Img) (hl : ∀ t ∈ l, Wf t) (j : Nat) :
    Wf (l.getD j emptyImg) := by
  rcases Nat.lt_or_ge j l.length with hj | hj
  · rw [List.getD_eq_getElem _ emptyImg hj]
    exact hl _ (List.getElem_mem hj)
  · rw [List.getD_eq_getElem?_getD, List.getElem?_eq_none (by omega)]
    exact wf_empty

theorem extract_getD_shape (img : Img) (n : Int) (idx : Nat)
    (hidx : idx < n.toNat * n.toNat) :
    shapeH ((extract_tiles_from_image img n).getD idx emptyImg) =
        (bnds (shapeH img) n).getD (idx / n.toNat + 1) 0 -
          (bnds (shapeH img) n).getD (idx / n.toNat) 0
      ∧ shapeW ((extract_tiles_from_image img n).getD idx emptyImg) =
        (bnds (shapeW img) n).getD (idx % n.toNat + 1) 0 -
          (bnds (shapeW img) n).getD (idx % n.toNat) 0 := by
  rw [extract_getD img n idx hidx, shapeH_readRect, shapeW_readRect]
  have h1 := bnds_getD_le (shapeH img) n (idx / n.toNat + 1)
  have h2 := bnds_getD_le (shapeW img) n (idx % n.toNat + 1)
  have h3 := bnds_getD_le (shapeW img) n (idx % n.toNat)
  constructor
  · omega
  · simp only [shapeW] at h2 h3 ⊢
    omega

/-- Invariant of the per-cell loop: a successful pass yields a well-formed
buffer of the requested shape. -/
theorem cellLoop_ok_inv (h w n : Nat) (ys xs : List Nat) (pick : Nat → Img)
    (hys : ∀ i, ys.getD i 0 ≤ h) (hxs : ∀ i, xs.getD i 0 ≤ w)
    (hpick : ∀ idx, Wf (pick idx)) :
    ∀ R, cellLoop h w n ys xs pick = Except.ok R →
      Wf R ∧ shapeH R = h ∧ shapeW R = w := by
  intro R hR
  refine foldlM_except_inv (fun acc => Wf acc ∧ shapeH acc = h ∧ shapeW acc = w)
    _ _ ?_ (zerosImg h w) R ⟨wf_zeros h w, shapeH_zeros h w, shapeW_zeros h w⟩ hR
  intro acc idx r _ hP heq
  obtain ⟨hwf, hsh, hsw⟩ := hP
  simp only [cellStep] at heq
  have hy0 := hys (idx / n)
  have hy1 := hys (idx / n + 1)
  have hx0 := hxs (idx % n)
  have hx1 := hxs (idx % n + 1)
  split at heq
  · next hcond =>
    cases heq
    obtain ⟨hch, hcw⟩ := hcond
    have hby : ys.getD (idx / n) 0 + shapeH (pick idx) ≤ shapeH acc := by
      rw [hsh, hch]; omega
    have hbx : xs.getD (idx % n) 0 + shapeW (pick idx) ≤ shapeW acc := by
      rw [hsw, hcw]; omega
    exact ⟨wf_writeRect _ _ _ _ hwf (hpick idx) hby hbx,
      by rw [shapeH_writeRect _ _ _ _ hby]; exact hsh,
      by rw [shapeW_writeRect]; exact hsw⟩
  · next hcond =>
    cases hcv : cvResize (pick idx)
        (xs.getD (idx % n + 1) 0 - xs.getD (idx % n) 0)
        (ys.getD (idx / n + 1) 0 - ys.getD (idx / n) 0) with
    | none =>
        rw [hcv] at heq
        cases heq
    | some rt =>
        rw [hcv] at heq
        cases heq
        obtain ⟨hrtwf, hrth, hrtw⟩ := cvResize_some_spec _ _ _ _ hcv
        have hby : ys.getD (idx / n) 0 + shapeH rt ≤ shapeH acc := by
          rw [hsh, hrth]; omega
        have hbx : xs.getD (idx % n) 0 + shapeW rt ≤ shapeW acc := by
          rw [hsw, hrtw]; omega
        exact ⟨wf_writeRect _ _ _ _ hwf hrtwf hby hbx,
          by rw [shapeH_writeRect _ _ _ _ hby]; exact hsh,
          by rw [shapeW_writeRect]; exact hsw⟩

/-- Invariant of one whole pass. -/
theorem mosaicPass_ok_inv (grid_n : Int) (ys xs : List Nat) (h w : Nat)
    (pool_tiles : Option (List Img)) (shuffles : Nat → List Nat)
    (choices : Nat → Nat → Nat) (k : Nat) (out : Img)
    (hys : ∀ i, ys.getD i 0 ≤ h) (hxs : ∀ i, xs.getD i 0 ≤ w)
    (hpool : ∀ pts, pool_tiles = some pts → ∀ t ∈ pts, Wf t) (hout : Wf out) :
    ∀ R, mosaicPass grid_n ys xs h w pool_tiles shuffles choices k out = Except.ok R →
      Wf R ∧ shapeH R = h ∧ shapeW R = w := by
  intro R hR
  cases pool_tiles with
  | none =>
      exact cellLoop_ok_inv h w grid_n.toNat ys xs _ hys hxs
        (fun idx => wf_extract_getD out grid_n hout _) R hR
  | some pts =>
      exact cellLoop_ok_inv h w grid_n.toNat ys xs _ hys hxs
        (fun idx => getD_wf pts (hpool pts rfl) _) R hR

theorem wf_poolTilesSel (pool_images : Option (List (Option Img))) (grid_n : Int)
    (hpool : ∀ ps, pool_images = some ps → ∀ p : Img, some p ∈ ps → Wf p) :
    ∀ pts, poolTilesSel pool_images grid_n = some pts → ∀ t ∈ pts, Wf t := by
  intro pts hsel t ht
  cases pool_images with
  | none => cases hsel
  | some ps =>
      simp only [poolTilesSel] at hsel
      cases hb1 : ps.isEmpty with
      | true =>
          rw [hb1] at hsel
          simp at hsel
      | false =>
          rw [hb1] at hsel
          cases hb2 : (poolTilesOf ps grid_n).isEmpty with
          | true =>
              rw [hb2] at hsel
              simp at hsel
          | false =>
              rw [hb2] at hsel
              simp at hsel
              subst hsel
              simp only [poolTilesOf, List.mem_flatMap] at ht
              obtain ⟨pe, hpe, ht'⟩ := ht
              cases pe with
              | none => simp at ht'
              | some p =>
                  exact wf_extract_mem p grid_n (hpool ps rfl p hpe) t ht'

theorem except_map_some_ok {β γ : Type} (e : Except Unit β) (f : β → γ) (o : γ)
    (h : e.map f = Except.ok o) : ∃ b, e = Except.ok b ∧ o = f b := by
  cases e with
  | error err => cases h
  | ok b =>
      refine ⟨b, rfl, ?_⟩
      cases h
      rfl

/-- Claim C3: for every image `I`, grid order, iteration count and pool, the
image returned by `generate` has exactly the height and width of `I`.  (The
other conjunct of the claim — that the result does not alias `I`'s buffer —
holds in the source by construction, since every path returns `image.copy()`
or a fresh `np.zeros_like` buffer; buffer identity is not observable in this
value-level embedding.) -/
theorem create_mosaic_preserves_dims (img : Img) (grid_n iterations : Int)
    (pool_images : Option (List (Option Img))) (shuffles : Nat → List Nat)
    (choices : Nat → Nat → Nat) (hwf : Wf img)
    (hpool : ∀ ps, pool_images = some ps → ∀ p : Img, some p ∈ ps → Wf p) :
    ∀ o, create_mosaic (some img) grid_n iterations pool_images shuffles choices =
        Except.ok o →
      ∃ out, o = some out ∧ shapeH out = shapeH img ∧ shapeW out = shapeW img := by
  intro o ho
  simp only [create_mosaic] at ho
  split at ho
  · cases ho
    exact ⟨img, rfl, rfl, rfl⟩
  · obtain ⟨R, hfold, ho2⟩ := except_map_some_ok _ some o ho
    have hP := foldlM_except_inv
      (fun acc => Wf acc ∧ shapeH acc = shapeH img ∧ shapeW acc = shapeW img)
      _ _ (fun acc k r _ hP heq =>
        mosaicPass_ok_inv grid_n _ _ _ _ _ shuffles choices k acc
          (fun i => bnds_getD_le (shapeH img) grid_n i)
          (fun i => bnds_getD_le (shapeW img) grid_n i)
          (wf_poolTilesSel pool_images grid_n hpool) hP.1 r heq)
      img R ⟨hwf, rfl, rfl⟩ hfold
    exact ⟨R, ho2, hP.2.1, hP.2.2⟩

theorem create_mosaic_preserves_dims_witness :
    ∃ out, some (⟨2, [[2, 1], [4, 3]]⟩ : Img) = some out ∧
      shapeH out = shapeH (⟨2, [[1, 2], [3, 4]]⟩ : Img) ∧
      shapeW out = shapeW (⟨2, [[1, 2], [3, 4]]⟩ : Img) :=
  create_mosaic_preserves_dims ⟨2, [[1, 2], [3, 4]]⟩ 2 1 none
    (fun _ => [1, 0, 3, 2]) (fun _ _ => 0) (by decide)
    (fun ps h => by cases h) (some ⟨2, [[2, 1], [4, 3]]⟩) rfl

/-- Claim C4: for `grid_n ≤ 1` (including `0` and negative orders),
`create_mosaic` returns a pixel-exact copy of the target, regardless of the
iteration count and the pool. -/
theorem create_mosaic_identity_small_n (img : Img) (grid_n iterations : Int)
    (pool_images : Option (List (Option Img))) (shuffles : Nat → List Nat)
    (choices : Nat → Nat → Nat) (hn : grid_n ≤ 1) :
    create_mosaic (some img) grid_n iterations pool_images shuffles choices =
      Except.ok (some img) := by
  simp only [create_mosaic]
  rw [if_pos hn]

theorem create_mosaic_identity_small_n_witness :
    create_mosaic (some ⟨1, [[5]]⟩) 0 3 (some [some ⟨1, [[9]]⟩])
        (fun _ => []) (fun _ _ => 0) = Except.ok (some ⟨1, [[5]]⟩) :=
  create_mosaic_identity_small_n ⟨1, [[5]]⟩ 0 3 (some [some ⟨1, [[9]]⟩])
    (fun _ => []) (fun _ _ => 0) (by decide)

/-- Claim C10: a missing target image (`None`) makes `create_mosaic` return
`None` immediately, for every grid order, iteration count and pool. -/
theorem create_mosaic_none_target (grid_n iterations : Int)
    (pool_images : Option (List (Option Img))) (shuffles : Nat → List Nat)
    (choices : Nat → Nat → Nat) :
    create_mosaic none grid_n iterations pool_images shuffles choices =
      Except.ok none := rfl

/-- Counterexample to claim C7: `extract_tiles_from_image` with grid order
`0` or `-1` does not raise any exception — there is no `InvalidGridOrder`
anywhere in the source — it simply returns the empty tile list (both Python
loops are empty ranges). -/
theorem extract_low_order_no_raise_counterexample :
    extract_tiles_from_image ⟨2, [[1, 2], [3, 4]]⟩ 0 = [] ∧
      extract_tiles_from_image ⟨2, [[1, 2], [3, 4]]⟩ (-1) = [] :=
  ⟨rfl, rfl⟩

/-- Claim C7 (amended): passing `n = 0` or `n = -1` directly to the
low-level partitioner returns the empty tile list without raising, while
`create_mosaic` at the same orders returns the input unchanged. -/
theorem extract_low_order_returns_empty (img : Img) (iterations : Int)
    (pool_images : Option (List (Option Img))) (shuffles : Nat → List Nat)
    (choices : Nat → Nat → Nat) :
    extract_tiles_from_image img 0 = [] ∧
      extract_tiles_from_image img (-1) = [] ∧
      create_mosaic (some img) 0 iterations pool_images shuffles choices =
        Except.ok (some img) ∧
      create_mosaic (some img) (-1) iterations pool_images shuffles choices =
        Except.ok (some img) := by
  refine ⟨rfl, rfl, ?_, ?_⟩
  · simp only [create_mosaic]
    rw [if_pos (by omega : (0 : Int) ≤ 1)]
  · simp only [create_mosaic]
    rw [if_pos (by omega : (-1 : Int) ≤ 1)]

/-- Claim C6: an empty pool list takes exactly the no-pool path; tile
extraction is attempted on every pool entry with failing entries skipped
(the collection is the concatenation of the extractions of the valid
entries); and a non-empty pool whose gathered tile collection is empty
falls back silently to no-pool mode. -/
theorem create_mosaic_pool_fallback (img : Img) (grid_n iterations : Int)
    (shuffles : Nat → List Nat) (choices : Nat → Nat → Nat) :
    (create_mosaic (some img) grid_n iterations (some []) shuffles choices =
        create_mosaic (some img) grid_n iterations none shuffles choices)
      ∧ (∀ ps : List (Option Img), poolTilesOf ps grid_n =
          (ps.filterMap id).flatMap (fun p => extract_tiles_from_image p grid_n))
      ∧ (∀ ps : List (Option Img), ps ≠ [] → poolTilesOf ps grid_n = [] →
          create_mosaic (some img) grid_n iterations (some ps) shuffles choices =
            create_mosaic (some img) grid_n iterations none shuffles choices) := by
  refine ⟨rfl, ?_, ?_⟩
  · intro ps
    induction ps with
    | nil => rfl
    | cons pe ps ih =>
        cases pe with
        | none =>
            simp only [poolTilesOf, List.flatMap_cons, List.filterMap_cons] at ih ⊢
            simpa using ih
        | some p =>
            simp only [poolTilesOf, List.flatMap_cons, List.filterMap_cons, id] at ih ⊢
            rw [ih]
  · intro ps hne hempty
    have h1 : ps.isEmpty = false := by
      cases hps : ps.isEmpty with
      | false => rfl
      | true => exact absurd (List.isEmpty_iff.1 hps) hne
    have h2 : (poolTilesOf ps grid_n).isEmpty = true := by
      rw [List.isEmpty_iff]
      exact hempty
    have hsel : poolTilesSel (some ps) grid_n = (none : Option (List Img)) := by
      simp [poolTilesSel, h1, h2]
    simp only [create_mosaic, hsel]
    rfl

theorem create_mosaic_pool_fallback_witness :
    create_mosaic (some ⟨2, [[1, 2], [3, 4]]⟩) 2 1 (some [none])
        (fun _ => [1, 0, 3, 2]) (fun _ _ => 0) =
      create_mosaic (some ⟨2, [[1, 2], [3, 4]]⟩) 2 1 none
        (fun _ => [1, 0, 3, 2]) (fun _ _ => 0) :=
  (create_mosaic_pool_fallback ⟨2, [[1, 2], [3, 4]]⟩ 2 1
    (fun _ => [1, 0, 3, 2]) (fun _ _ => 0)).2.2 [none] (by decide) rfl

/-- Claim C2: the boundary lists computed by the partitioner satisfy the
floor formula `ys[i] = H*i/n`, start at `0`, end at the image extent, are
non-decreasing, and the `n * n` cells tile the `H × W` rectangle exactly:
every pixel position lies in exactly one cell. -/
theorem bnds_partition_correct (H W : Nat) (n : Int) (hH : 1 ≤ H) (hW : 1 ≤ W)
    (hn : 1 ≤ n) :
    (bnds H n).length = n.toNat + 1 ∧
    (bnds W n).length = n.toNat + 1 ∧
    (∀ i ≤ n.toNat, (bnds H n).getD i 0 = H * i / n.toNat) ∧
    (∀ i ≤ n.toNat, (bnds W n).getD i 0 = W * i / n.toNat) ∧
    (bnds H n).getD 0 0 = 0 ∧ (bnds W n).getD 0 0 = 0 ∧
    (bnds H n).getD n.toNat 0 = H ∧ (bnds W n).getD n.toNat 0 = W ∧
    (∀ i < n.toNat, (bnds H n).getD i 0 ≤ (bnds H n).getD (i + 1) 0) ∧
    (∀ i < n.toNat, (bnds W n).getD i 0 ≤ (bnds W n).getD (i + 1) 0) ∧
    (∀ y < H, ∀ x < W, ∃! c : Nat × Nat, c.1 < n.toNat ∧ c.2 < n.toNat ∧
      (bnds H n).getD c.1 0 ≤ y ∧ y < (bnds H n).getD (c.1 + 1) 0 ∧
      (bnds W n).getD c.2 0 ≤ x ∧ x < (bnds W n).getD (c.2 + 1) 0) := by
  refine ⟨bnds_length H n hn, bnds_length W n hn,
    fun i hi => bnds_getD H n hn i hi, fun i hi => bnds_getD W n hn i hi,
    bnds_zero H n, bnds_zero W n, bnds_last H n hn, bnds_last W n hn,
    fun i hi => bnds_mono H n hn i hi, fun i hi => bnds_mono W n hn i hi, ?_⟩
  intro y hy x hx
  obtain ⟨ry, hry, hryu⟩ := bnds_cell_exists_unique H n hn y hy
  obtain ⟨rx, hrx, hrxu⟩ := bnds_cell_exists_unique W n hn x hx
  refine ⟨(ry, rx), ⟨hry.1, hrx.1, hry.2.1, hry.2.2, hrx.2.1, hrx.2.2⟩, ?_⟩
  rintro ⟨ry', rx'⟩ ⟨h1, h2, h3, h4, h5, h6⟩
  have e1 : ry' = ry := hryu ry' ⟨h1, h3, h4⟩
  have e2 : rx' = rx := hrxu rx' ⟨h2, h5, h6⟩
  simp [e1, e2]

theorem bnds_partition_correct_witness :
    (bnds 2 2).length = (2 : Int).toNat + 1 ∧
    (bnds 3 2).length = (2 : Int).toNat + 1 ∧
    (∀ i ≤ (2 : Int).toNat, (bnds 2 2).getD i 0 = 2 * i / (2 : Int).toNat) ∧
    (∀ i ≤ (2 : Int).toNat, (bnds 3 2).getD i 0 = 3 * i / (2 : Int).toNat) ∧
    (bnds 2 2).getD 0 0 = 0 ∧ (bnds 3 2).getD 0 0 = 0 ∧
    (bnds 2 2).getD (2 : Int).toNat 0 = 2 ∧ (bnds 3 2).getD (2 : Int).toNat 0 = 3 ∧
    (∀ i < (2 : Int).toNat, (bnds 2 2).getD i 0 ≤ (bnds 2 2).getD (i + 1) 0) ∧
    (∀ i < (2 : Int).toNat, (bnds 3 2).getD i 0 ≤ (bnds 3 2).getD (i + 1) 0) ∧
    (∀ y < 2, ∀ x < 3, ∃! c : Nat × Nat, c.1 < (2 : Int).toNat ∧ c.2 < (2 : Int).toNat ∧
      (bnds 2 2).getD c.1 0 ≤ y ∧ y < (bnds 2 2).getD (c.1 + 1) 0 ∧
      (bnds 3 2).getD c.2 0 ≤ x ∧ x < (bnds 3 2).getD (c.2 + 1) 0) :=
  bnds_partition_correct 2 3 2 (by decide) (by decide) (by decide)

theorem runPasses_eq_foldlM (grid_n : Int) (ys xs : List Nat) (h w : Nat)
    (pool_tiles : Option (List Img)) (shuffles : Nat → List Nat)
    (choices : Nat → Nat → Nat) :
    ∀ (m j : Nat) (out : Img),
      runPasses grid_n ys xs h w pool_tiles shuffles choices m j out =
        (List.range' j m).foldlM
          (fun acc i => mosaicPass grid_n ys xs h w pool_tiles shuffles choices i acc)
          out := by
  intro m
  induction m with
  | zero =>
      intro j out
      rfl
  | succ m ih =>
      intro j out
      rw [List.range'_succ, List.foldlM_cons]
      simp only [runPasses]
      cases hp : mosaicPass grid_n ys xs h w pool_tiles shuffles choices j out with
      | error e =>
          cases e
          rw [except_bind_error]
          rfl
      | ok b =>
          rw [except_bind_ok]
          exact ih (j + 1) b

/-- Claim C8: for `n ≥ 2`, `create_mosaic` performs exactly `max 1 k`
sequential passes — pass `0` on the target, each later pass on the previous
pass's output (`runPasses` is the explicit sequential composition) — and any
iteration count below `1` behaves exactly like `1`. -/
theorem create_mosaic_iterations (img : Img) (grid_n k : Int)
    (pool_images : Option (List (Option Img))) (shuffles : Nat → List Nat)
    (choices : Nat → Nat → Nat) (hn : 2 ≤ grid_n) :
    (create_mosaic (some img) grid_n k pool_images shuffles choices =
        (runPasses grid_n (bnds (shapeH img) grid_n) (bnds (shapeW img) grid_n)
          (shapeH img) (shapeW img) (poolTilesSel pool_images grid_n) shuffles choices
          (max 1 k).toNat 0 img).map some)
      ∧ ((max 1 k).toNat = if k ≤ 1 then 1 else k.toNat)
      ∧ (k ≤ 1 → create_mosaic (some img) grid_n k pool_images shuffles choices =
          create_mosaic (some img) grid_n 1 pool_images shuffles choices) := by
  refine ⟨?_, ?_, ?_⟩
  · simp only [create_mosaic]
    rw [if_neg (by omega), List.range_eq_range',
      runPasses_eq_foldlM grid_n _ _ _ _ _ shuffles choices (max 1 k).toNat 0 img]
  · rcases le_or_lt k 1 with hk | hk
    · rw [if_pos hk, max_eq_left hk]
      rfl
    · rw [if_neg (by omega), max_eq_right (by omega)]
  · intro hk
    have hmax : max 1 k = max 1 (1 : Int) := by
      rw [max_eq_left hk, max_self]
    simp only [create_mosaic, hmax]

/-- Counterexample to claim C5: on a valid 1-by-2 target with `n = 2` the
grid has zero-height cells; the drawn shuffle (a genuine permutation of the
four cell indices) moves a non-empty tile into an empty cell, the shape
mismatch forces a resize, and `cv2.resize` raises on the degenerate
geometry, so the call errors instead of returning an image. -/
theorem create_mosaic_error_counterexample :
    ([2, 0, 1, 3] : List Nat).Perm (List.range 4) ∧
      Wf ⟨2, [[1, 2]]⟩ ∧
      create_mosaic (some ⟨2, [[1, 2]]⟩) 2 1 none (fun _ => [2, 0, 1, 3])
        (fun _ _ => 0) = Except.error () :=
  ⟨by decide, by decide, rfl⟩

theorem perm_getD_lt (perm : List Nat) (m : Nat)
    (hperm : perm.Perm (List.range m)) (idx : Nat) (hidx : idx < m) :
    perm.getD idx 0 < m := by
  have hlen : perm.length = m := by
    rw [hperm.length_eq, List.length_range]
  rw [List.getD_eq_getElem perm 0 (by omega)]
  have hmem : perm[idx] ∈ perm := List.getElem_mem (by omega)
  rw [hperm.mem_iff, List.mem_range] at hmem
  exact hmem

theorem extract_mem_pos_shape (p : Img) (n : Int) (hn : 1 ≤ n)
    (hh : n.toNat ≤ shapeH p) (hw : n.toNat ≤ shapeW p) :
    ∀ t ∈ extract_tiles_from_image p n, shapeH t ≠ 0 ∧ shapeW t ≠ 0 := by
  intro t ht
  rw [extract_eq_map] at ht
  simp only [List.mem_map, List.mem_range] at ht
  obtain ⟨idx, hidx, hreq⟩ := ht
  have hN : 0 < n.toNat := by omega
  have ht' : t = (extract_tiles_from_image p n).getD idx emptyImg := by
    rw [extract_getD p n idx hidx, ← hreq]
  obtain ⟨hsh, hsw⟩ := extract_getD_shape p n idx hidx
  have hdiv : idx / n.toNat < n.toNat := Nat.div_lt_of_lt_mul hidx
  have hmod : idx % n.toNat < n.toNat := Nat.mod_lt idx hN
  have h1 := bnds_strict (shapeH p) n hn hh (idx / n.toNat) hdiv
  have h2 := bnds_strict (shapeW p) n hn hw (idx % n.toNat) hmod
  rw [ht']
  omega

/-- Totality of the per-cell loop when every cell is non-empty and every
picked tile is well-formed and non-empty. -/
theorem cellLoop_total (h w : Nat) (n : Int) (pick : Nat → Img) (hn : 1 ≤ n)
    (hh : n.toNat ≤ h) (hw : n.toNat ≤ w)
    (hpick : ∀ idx < n.toNat * n.toNat,
      Wf (pick idx) ∧ shapeH (pick idx) ≠ 0 ∧ shapeW (pick idx) ≠ 0) :
    ∃ R, cellLoop h w n.toNat (bnds h n) (bnds w n) pick = Except.ok R ∧
      Wf R ∧ shapeH R = h ∧ shapeW R = w := by
  have hN : 0 < n.toNat := by omega
  simp only [cellLoop]
  refine foldlM_except_total
    (fun acc => Wf acc ∧ shapeH acc = h ∧ shapeW acc = w) _
    (List.range (n.toNat * n.toNat)) ?_ (zerosImg h w)
    ⟨wf_zeros h w, shapeH_zeros h w, shapeW_zeros h w⟩
  intro acc idx hmem hP
  obtain ⟨hwf, hsh, hsw⟩ := hP
  rw [List.mem_range] at hmem
  obtain ⟨hpwf, hph, hpw⟩ := hpick idx hmem
  have hdiv : idx / n.toNat < n.toNat := Nat.div_lt_of_lt_mul hmem
  have hmod : idx % n.toNat < n.toNat := Nat.mod_lt idx hN
  have hy0 := bnds_getD_le h n (idx / n.toNat)
  have hy1 := bnds_getD_le h n (idx / n.toNat + 1)
  have hx0 := bnds_getD_le w n (idx % n.toNat)
  have hx1 := bnds_getD_le w n (idx % n.toNat + 1)
  have hys := bnds_strict h n hn hh (idx / n.toNat) hdiv
  have hxs := bnds_strict w n hn hw (idx % n.toNat) hmod
  simp only [cellStep]
  by_cases hc : shapeH (pick idx) =
      (bnds h n).getD (idx / n.toNat + 1) 0 - (bnds h n).getD (idx / n.toNat) 0 ∧
      shapeW (pick idx) =
      (bnds w n).getD (idx % n.toNat + 1) 0 - (bnds w n).getD (idx % n.toNat) 0
  · rw [if_pos hc]
    have hby : (bnds h n).getD (idx / n.toNat) 0 + shapeH (pick idx) ≤ shapeH acc := by
      rw [hsh, hc.1]; omega
    have hbx : (bnds w n).getD (idx % n.toNat) 0 + shapeW (pick idx) ≤ shapeW acc := by
      rw [hsw, hc.2]; omega
    exact ⟨_, rfl, wf_writeRect _ _ _ _ hwf hpwf hby hbx,
      by rw [shapeH_writeRect _ _ _ _ hby]; exact hsh,
      by rw [shapeW_writeRect]; exact hsw⟩
  · rw [if_neg hc]
    obtain ⟨rt, hrt⟩ := cvResize_isSome (pick idx)
      ((bnds w n).getD (idx % n.toNat + 1) 0 - (bnds w n).getD (idx % n.toNat) 0)
      ((bnds h n).getD (idx / n.toNat + 1) 0 - (bnds h n).getD (idx / n.toNat) 0)
      hph hpw (by omega) (by omega)
    rw [hrt]
    obtain ⟨hrtwf, hrth, hrtw⟩ := cvResize_some_spec _ _ _ _ hrt
    have hby : (bnds h n).getD (idx / n.toNat) 0 + shapeH rt ≤ shapeH acc := by
      rw [hsh, hrth]; omega
    have hbx : (bnds w n).getD (idx % n.toNat) 0 + shapeW rt ≤ shapeW acc := by
      rw [hsw, hrtw]; omega
    exact ⟨_, rfl, wf_writeRect _ _ _ _ hwf hrtwf hby hbx,
      by rw [shapeH_writeRect _ _ _ _ hby]; exact hsh,
      by rw [shapeW_writeRect]; exact hsw⟩

theorem mosaicPass_total (grid_n : Int) (h w : Nat)
    (pool_tiles : Option (List Img)) (shuffles : Nat → List Nat)
    (choices : Nat → Nat → Nat) (k : Nat) (out : Img) (hn : 1 ≤ grid_n)
    (hh : grid_n.toNat ≤ h) (hw : grid_n.toNat ≤ w) (hout : Wf out)
    (houtH : shapeH out = h) (houtW : shapeW out = w)
    (hperm : (shuffles k).Perm (List.range (grid_n.toNat * grid_n.toNat)))
    (hpool : ∀ pts, pool_tiles = some pts →
      (∀ t ∈ pts, Wf t ∧ shapeH t ≠ 0 ∧ shapeW t ≠ 0) ∧
        (∀ j i, choices j i < pts.length)) :
    ∃ R, mosaicPass grid_n (bnds h grid_n) (bnds w grid_n) h w pool_tiles
        shuffles choices k out = Except.ok R ∧
      Wf R ∧ shapeH R = h ∧ shapeW R = w := by
  cases pool_tiles with
  | none =>
      simp only [mosaicPass]
      refine cellLoop_total h w grid_n _ hn hh hw ?_
      intro idx hidx
      have hj : (shuffles k).getD idx 0 < grid_n.toNat * grid_n.toNat :=
        perm_getD_lt _ _ hperm idx hidx
      refine ⟨wf_extract_getD out grid_n hout _, ?_, ?_⟩
      · obtain ⟨hsh, _⟩ := extract_getD_shape out grid_n _ hj
        rw [houtH] at hsh
        rw [hsh]
        have hdiv : (shuffles k).getD idx 0 / grid_n.toNat < grid_n.toNat :=
          Nat.div_lt_of_lt_mul hj
        have := bnds_strict h grid_n hn hh _ hdiv
        omega
      · obtain ⟨_, hsw⟩ := extract_getD_shape out grid_n _ hj
        rw [houtW] at hsw
        rw [hsw]
        have hmod : (shuffles k).getD idx 0 % grid_n.toNat < grid_n.toNat :=
          Nat.mod_lt _ (by omega)
        have := bnds_strict w grid_n hn hw _ hmod
        omega
  | some pts =>
      simp only [mosaicPass]
      refine cellLoop_total h w grid_n _ hn hh hw ?_
      intro idx hidx
      obtain ⟨hts, hch⟩ := hpool pts rfl
      have hlt := hch k idx
      have hmem : pts.getD (choices k idx) emptyImg ∈ pts := by
        rw [List.getD_eq_getElem pts emptyImg hlt]
        exact List.getElem_mem hlt
      exact hts _ hmem

/-- Claim C5 (amended): the mosaic path never raises provided the grid does
not outnumber the pixels: for `grid_n ≤ 1`, or for `grid_n` at most both
dimensions of the target (and, in pool mode, at most both dimensions of
every valid pool entry), `create_mosaic` always returns an image — the
randomness hypotheses state exactly what `random.shuffle` and
`random.choice` guarantee.  When `grid_n` exceeds a dimension, the call can
raise (see the recorded counterexample), so the unconditional claim fails. -/
theorem create_mosaic_total (img : Img) (grid_n k : Int)
    (pool_images : Option (List (Option Img))) (shuffles : Nat → List Nat)
    (choices : Nat → Nat → Nat) (hwf : Wf img)
    (hdims : grid_n ≤ 1 ∨ (grid_n.toNat ≤ shapeH img ∧ grid_n.toNat ≤ shapeW img))
    (hpool : ∀ ps, pool_images = some ps → ∀ p : Img, some p ∈ ps →
      Wf p ∧ grid_n.toNat ≤ shapeH p ∧ grid_n.toNat ≤ shapeW p)
    (hsh : ∀ j, (shuffles j).Perm (List.range (grid_n.toNat * grid_n.toNat)))
    (hch : ∀ ps, pool_images = some ps → ∀ j i,
      choices j i < (poolTilesOf ps grid_n).length ∨ poolTilesOf ps grid_n = []) :
    ∃ out, create_mosaic (some img) grid_n k pool_images shuffles choices =
      Except.ok (some out) := by
  rcases le_or_lt grid_n 1 with hn1 | hn1
  · exact ⟨img, by simp only [create_mosaic]; rw [if_pos hn1]⟩
  have hn : 1 ≤ grid_n := by omega
  obtain ⟨hhd, hwd⟩ : grid_n.toNat ≤ shapeH img ∧ grid_n.toNat ≤ shapeW img := by
    rcases hdims with hd | hd
    · omega
    · exact hd
  have hsel : ∀ pts, poolTilesSel pool_images grid_n = some pts →
      (∀ t ∈ pts, Wf t ∧ shapeH t ≠ 0 ∧ shapeW t ≠ 0) ∧
        (∀ j i, choices j i < pts.length) := by
    intro pts hselEq
    cases pool_images with
    | none => cases hselEq
    | some ps =>
        simp only [poolTilesSel] at hselEq
        cases hb1 : ps.isEmpty with
        | true =>
            rw [hb1] at hselEq
            simp at hselEq
        | false =>
            rw [hb1] at hselEq
            cases hb2 : (poolTilesOf ps grid_n).isEmpty with
            | true =>
                rw [hb2] at hselEq
                simp at hselEq
            | false =>
                rw [hb2] at hselEq
                simp at hselEq
                subst hselEq
                constructor
                · intro t ht
                  simp only [poolTilesOf, List.mem_flatMap] at ht
                  obtain ⟨pe, hpe, ht'⟩ := ht
                  cases pe with
                  | none => simp at ht'
                  | some p =>
                      obtain ⟨hpwf, hph, hpw⟩ := hpool ps rfl p hpe
                      exact ⟨wf_extract_mem p grid_n hpwf t ht',
                        extract_mem_pos_shape p grid_n hn hph hpw t ht'⟩
                · intro j i
                  rcases hch ps rfl j i with hlt | hemp
                  · exact hlt
                  · rw [hemp] at hb2
                    simp at hb2
  simp only [create_mosaic]
  rw [if_neg (by omega)]
  obtain ⟨R, hfold, _⟩ := foldlM_except_total
    (fun acc => Wf acc ∧ shapeH acc = shapeH img ∧ shapeW acc = shapeW img) _
    (List.range (max 1 k).toNat)
    (fun acc k' _ hP => mosaicPass_total grid_n (shapeH img) (shapeW img)
      (poolTilesSel pool_images grid_n) shuffles choices k' acc hn hhd hwd
      hP.1 hP.2.1 hP.2.2 (hsh k') hsel)
    img ⟨hwf, rfl, rfl⟩
  exact ⟨R, by rw [hfold]; rfl⟩

theorem create_mosaic_total_witness :
    ∃ out, create_mosaic (some ⟨2, [[1, 2], [3, 4]]⟩) 2 1 none
      (fun _ => [1, 0, 3, 2]) (fun _ _ => 0) = Except.ok (some out) :=
  create_mosaic_total ⟨2, [[1, 2], [3, 4]]⟩ 2 1 none
    (fun _ => [1, 0, 3, 2]) (fun _ _ => 0) (by decide)
    (Or.inr (by decide)) (fun ps h => by cases h)
    (fun j => by
      show ([1, 0, 3, 2] : List Nat).Perm (List.range ((2 : Int).toNat * (2 : Int).toNat))
      decide)
    (fun ps h => by cases h)

theorem create_mosaic_iterations_witness :
    (create_mosaic (some ⟨2, [[1, 2], [3, 4]]⟩) 2 (-5) none
        (fun _ => [1, 0, 3, 2]) (fun _ _ => 0) =
      (runPasses 2 (bnds (shapeH ⟨2, [[1, 2], [3, 4]]⟩) 2)
        (bnds (shapeW ⟨2, [[1, 2], [3, 4]]⟩) 2) (shapeH ⟨2, [[1, 2], [3, 4]]⟩)
        (shapeW ⟨2, [[1, 2], [3, 4]]⟩) (poolTilesSel none 2)
        (fun _ => [1, 0, 3, 2]) (fun _ _ => 0) (max 1 (-5 : Int)).toNat 0
        ⟨2, [[1, 2], [3, 4]]⟩).map some)
    ∧ ((max 1 (-5 : Int)).toNat = if (-5 : Int) ≤ 1 then 1 else (-5 : Int).toNat)
    ∧ ((-5 : Int) ≤ 1 → create_mosaic (some ⟨2, [[1, 2], [3, 4]]⟩) 2 (-5) none
        (fun _ => [1, 0, 3, 2]) (fun _ _ => 0) =
      create_mosaic (some ⟨2, [[1, 2], [3, 4]]⟩) 2 1 none
        (fun _ => [1, 0, 3, 2]) (fun _ _ => 0)) :=
  create_mosaic_iterations ⟨2, [[1, 2], [3, 4]]⟩ 2 (-5) none
    (fun _ => [1, 0, 3, 2]) (fun _ _ => 0) (by decide)

/-! ### The no-pool permutation property -/

theorem except_bind_pure {β : Type} (x : Except Unit β) :
    (x >>= fun b => (pure b : Except Unit β)) = x := by
  cases x <;> rfl

theorem foldl_congr_mem {α β : Type} (L : List α) (f g : β → α → β)
    (hfg : ∀ acc x, x ∈ L → f acc x = g acc x) :
    ∀ acc, L.foldl f acc = L.foldl g acc := by
  induction L with
  | nil => intro acc; rfl
  | cons x L ih =>
      intro acc
      rw [List.foldl_cons, List.foldl_cons,
        hfg acc x (List.mem_cons_self x L)]
      exact ih (fun acc' x' hm => hfg acc' x' (List.mem_cons_of_mem x hm)) _

/-- When every selected tile already matches its cell exactly, the monadic
cell loop is the plain fold of the rectangle writes. -/
theorem cellStep_all_match_fold (ys xs : List Nat) (n' : Nat) (pick : Nat → Img) :
    ∀ L : List Nat,
      (∀ idx ∈ L,
        shapeH (pick idx) = ys.getD (idx / n' + 1) 0 - ys.getD (idx / n') 0 ∧
        shapeW (pick idx) = xs.getD (idx % n' + 1) 0 - xs.getD (idx % n') 0) →
      ∀ acc, L.foldlM (cellStep ys xs n' pick) acc =
        Except.ok (L.foldl (fun acc idx =>
          writeRect acc (ys.getD (idx / n') 0) (xs.getD (idx % n') 0) (pick idx)) acc) := by
  intro L
  induction L with
  | nil =>
      intro _ acc
      rfl
  | cons x L ih =>
      intro hmatch acc
      have hx := hmatch x (List.mem_cons_self x L)
      have hstep : cellStep ys xs n' pick acc x =
          Except.ok (writeRect acc (ys.getD (x / n') 0) (xs.getD (x % n') 0) (pick x)) := by
        simp only [cellStep]
        rw [if_pos ⟨hx.1, hx.2⟩]
      rw [List.foldlM_cons, List.foldl_cons, hstep, except_bind_ok]
      exact ih (fun idx hm => hmatch idx (List.mem_cons_of_mem x hm)) _

theorem interval_disjoint (q1 q2 a u : Nat) (hne : q1 ≠ q2) (hu : u < a) :
    ¬(q2 * a ≤ q1 * a + u ∧ q1 * a + u < q2 * a + a) := by
  rintro ⟨h1, h2⟩
  rcases Nat.lt_or_ge q1 q2 with hlt | hge
  · have hm : (q1 + 1) * a ≤ q2 * a := Nat.mul_le_mul_right a (by omega)
    rw [Nat.succ_mul] at hm
    omega
  · have hgt : q2 < q1 := by omega
    have hm : (q2 + 1) * a ≤ q1 * a := Nat.mul_le_mul_right a (by omega)
    rw [Nat.succ_mul] at hm
    omega

/-- On an image whose extent is an exact multiple `N * a` of the grid order,
the boundary values are the multiples of `a`. -/
theorem bnds_uniform (n : Int) (a : Nat) (hn : 1 ≤ n) (i : Nat) (hi : i ≤ n.toNat) :
    (bnds (n.toNat * a) n).getD i 0 = i * a := by
  rw [bnds_getD (n.toNat * a) n hn i hi]
  have hN : 0 < n.toNat := by omega
  calc n.toNat * a * i / n.toNat = n.toNat * (a * i) / n.toNat := by ring_nf
    _ = a * i := Nat.mul_div_cancel_left (a * i) hN
    _ = i * a := Nat.mul_comm a i

/-- The pure rectangle-write fold of a uniform mosaic pass: cells are
`a × b`, cell `idx` sits at `(idx/N * a, idx%N * b)`. -/
def gridAssemble (N a b : Nat) (pick : Nat → Img) (m : Nat) : Img :=
  (List.range m).foldl (fun acc idx =>
    writeRect acc (idx / N * a) (idx % N * b) (pick idx)) (zerosImg (N * a) (N * b))

theorem gridAssemble_succ (N a b : Nat) (pick : Nat → Img) (m : Nat) :
    gridAssemble N a b pick (m + 1) =
      writeRect (gridAssemble N a b pick m) (m / N * a) (m % N * b) (pick m) := by
  unfold gridAssemble
  rw [List.range_succ, List.foldl_append, List.foldl_cons, List.foldl_nil]

/-- Shape, well-formedness and read-back description of the uniform
assembly: after all `m` writes, the pixels of cell `j` are exactly the
pixels of the tile placed there. -/
theorem gridAssemble_spec (N a b : Nat) (pick : Nat → Img)
    (hpick : ∀ idx < N * N,
      Wf (pick idx) ∧ shapeH (pick idx) = a ∧ shapeW (pick idx) = b) :
    ∀ m, m ≤ N * N →
      Wf (gridAssemble N a b pick m) ∧
      shapeH (gridAssemble N a b pick m) = N * a ∧
      shapeW (gridAssemble N a b pick m) = N * b ∧
      (∀ j < m, ∀ u < a, ∀ v < b,
        px (gridAssemble N a b pick m) (j / N * a + u) (j % N * b + v) =
          px (pick j) u v) := by
  intro m
  induction m with
  | zero =>
      intro _
      refine ⟨wf_zeros _ _, shapeH_zeros _ _, shapeW_zeros _ _, ?_⟩
      intro j hj
      exact absurd hj (Nat.not_lt_zero j)
  | succ m ih =>
      intro hm1
      have hN : 0 < N := by
        rcases Nat.eq_zero_or_pos N with h0 | h0
        · rw [h0] at hm1
          omega
        · exact h0
      obtain ⟨ihwf, ihsh, ihsw, ihpx⟩ := ih (by omega)
      obtain ⟨hpw, hph, hpwd⟩ := hpick m (by omega)
      have hdiv : m / N < N := Nat.div_lt_of_lt_mul (by omega)
      have hmod : m % N < N := Nat.mod_lt m hN
      have hby : m / N * a + shapeH (pick m) ≤ shapeH (gridAssemble N a b pick m) := by
        rw [hph, ihsh]
        calc m / N * a + a = (m / N + 1) * a := (Nat.succ_mul _ _).symm
          _ ≤ N * a := Nat.mul_le_mul_right a (by omega)
      have hbx : m % N * b + shapeW (pick m) ≤ shapeW (gridAssemble N a b pick m) := by
        rw [hpwd, ihsw]
        calc m % N * b + b = (m % N + 1) * b := (Nat.succ_mul _ _).symm
          _ ≤ N * b := Nat.mul_le_mul_right b (by omega)
      refine ⟨?_, ?_, ?_, ?_⟩
      · rw [gridAssemble_succ]
        exact wf_writeRect _ _ _ _ ihwf hpw hby hbx
      · rw [gridAssemble_succ, shapeH_writeRect _ _ _ _ hby]
        exact ihsh
      · rw [gridAssemble_succ, shapeW_writeRect]
        exact ihsw
      · intro j hj u hu v hv
        rw [gridAssemble_succ,
          px_writeRect (gridAssemble N a b pick m) (pick m) (m / N * a) (m % N * b)
            ihwf hpw hby hbx]
        rcases Nat.lt_or_ge j m with hjm | hjm
        · have hcond : ¬(m / N * a ≤ j / N * a + u ∧
              j / N * a + u < m / N * a + shapeH (pick m) ∧
              m % N * b ≤ j % N * b + v ∧
              j % N * b + v < m % N * b + shapeW (pick m)) := by
            rw [hph, hpwd]
            rintro ⟨c1, c2, c3, c4⟩
            by_cases hq : j / N = m / N
            · have hr : j % N ≠ m % N := by
                intro hr
                have e1 := Nat.div_add_mod j N
                have e2 := Nat.div_add_mod m N
                rw [hq, hr] at e1
                omega
              exact interval_disjoint (j % N) (m % N) b v hr hv ⟨c3, c4⟩
            · exact interval_disjoint (j / N) (m / N) a u hq hu ⟨c1, c2⟩
          rw [if_neg hcond]
          exact ihpx j hjm u hu v hv
        · have hje : j = m := by omega
          subst hje
          have hcond : j / N * a ≤ j / N * a + u ∧
              j / N * a + u < j / N * a + shapeH (pick j) ∧
              j % N * b ≤ j % N * b + v ∧
              j % N * b + v < j % N * b + shapeW (pick j) := by
            rw [hph, hpwd]
            exact ⟨Nat.le_add_right _ _, by omega, Nat.le_add_right _ _, by omega⟩
          rw [if_pos hcond]
          have e1 : j / N * a + u - j / N * a = u := by omega
          have e2 : j % N * b + v - j % N * b = v := by omega
          rw [e1, e2]

/-- Claim C1: in no-pool mode, on an image whose height and width are exact
multiples of the grid order `n ≥ 2`, a single iteration of `create_mosaic`
returns an image whose multiset of cell buffers equals the multiset of the
input's cell buffers: the pass is a permutation of the tiles (each source
tile placed exactly once), not sampling with replacement. -/
theorem create_mosaic_nopool_perm (img : Img) (n : Int) (a b : Nat)
    (shuffles : Nat → List Nat) (choices : Nat → Nat → Nat)
    (hwf : Wf img) (hn : 2 ≤ n)
    (hh : shapeH img = n.toNat * a) (hw : shapeW img = n.toNat * b)
    (hperm : (shuffles 0).Perm (List.range (n.toNat * n.toNat))) :
    ∃ R, create_mosaic (some img) n 1 none shuffles choices = Except.ok (some R) ∧
      (↑(extract_tiles_from_image R n) : Multiset Img) =
        ↑(extract_tiles_from_image img n) := by
  have hn1 : (1 : Int) ≤ n := by omega
  have hN : 0 < n.toNat := by omega
  -- the tile selected for cell `idx`
  have hpick : ∀ idx < n.toNat * n.toNat,
      Wf ((extract_tiles_from_image img n).getD ((shuffles 0).getD idx 0) emptyImg) ∧
      shapeH ((extract_tiles_from_image img n).getD ((shuffles 0).getD idx 0) emptyImg) = a ∧
      shapeW ((extract_tiles_from_image img n).getD ((shuffles 0).getD idx 0) emptyImg) = b := by
    intro idx hidx
    have hj : (shuffles 0).getD idx 0 < n.toNat * n.toNat :=
      perm_getD_lt _ _ hperm idx hidx
    have hdiv : (shuffles 0).getD idx 0 / n.toNat < n.toNat := Nat.div_lt_of_lt_mul hj
    have hmod : (shuffles 0).getD idx 0 % n.toNat < n.toNat := Nat.mod_lt _ hN
    obtain ⟨hsh, hsw⟩ := extract_getD_shape img n _ hj
    rw [hh, bnds_uniform n a hn1 _ (by omega), bnds_uniform n a hn1 _ (by omega)] at hsh
    rw [hw, bnds_uniform n b hn1 _ (by omega), bnds_uniform n b hn1 _ (by omega)] at hsw
    rw [Nat.succ_mul] at hsh hsw
    refine ⟨wf_extract_getD img n hwf _, by omega, by omega⟩
  obtain ⟨hRwf, hRsh, hRsw, hRpx⟩ := gridAssemble_spec n.toNat a b
    (fun idx => (extract_tiles_from_image img n).getD ((shuffles 0).getD idx 0) emptyImg)
    hpick (n.toNat * n.toNat) (Nat.le_refl _)
  -- the single pass computes exactly the uniform assembly
  have hmatch : ∀ idx ∈ List.range (n.toNat * n.toNat),
      shapeH ((extract_tiles_from_image img n).getD ((shuffles 0).getD idx 0) emptyImg) =
        (bnds (n.toNat * a) n).getD (idx / n.toNat + 1) 0 -
          (bnds (n.toNat * a) n).getD (idx / n.toNat) 0 ∧
      shapeW ((extract_tiles_from_image img n).getD ((shuffles 0).getD idx 0) emptyImg) =
        (bnds (n.toNat * b) n).getD (idx % n.toNat + 1) 0 -
          (bnds (n.toNat * b) n).getD (idx % n.toNat) 0 := by
    intro idx hmem
    rw [List.mem_range] at hmem
    have hdiv : idx / n.toNat < n.toNat := Nat.div_lt_of_lt_mul hmem
    have hmod : idx % n.toNat < n.toNat := Nat.mod_lt _ hN
    obtain ⟨h1, h2, h3⟩ := hpick idx hmem
    rw [h2, h3, bnds_uniform n a hn1 _ (by omega), bnds_uniform n a hn1 _ (by omega),
      bnds_uniform n b hn1 _ (by omega), bnds_uniform n b hn1 _ (by omega),
      Nat.succ_mul, Nat.succ_mul]
    omega
  have hpass : mosaicPass n (bnds (shapeH img) n) (bnds (shapeW img) n)
      (shapeH img) (shapeW img) none shuffles choices 0 img =
      Except.ok (gridAssemble n.toNat a b
        (fun idx => (extract_tiles_from_image img n).getD ((shuffles 0).getD idx 0) emptyImg)
        (n.toNat * n.toNat)) := by
    simp only [mosaicPass, cellLoop]
    rw [hh, hw]
    rw [cellStep_all_match_fold (bnds (n.toNat * a) n) (bnds (n.toNat * b) n) n.toNat
      (fun idx => (extract_tiles_from_image img n).getD ((shuffles 0).getD idx 0) emptyImg)
      (List.range (n.toNat * n.toNat)) hmatch (zerosImg (n.toNat * a) (n.toNat * b))]
    unfold gridAssemble
    refine congrArg Except.ok (foldl_congr_mem _ _ _ ?_ _)
    intro acc idx hmem
    rw [List.mem_range] at hmem
    have hdiv : idx / n.toNat < n.toNat := Nat.div_lt_of_lt_mul hmem
    have hmod : idx % n.toNat < n.toNat := Nat.mod_lt _ hN
    rw [bnds_uniform n a hn1 _ (by omega), bnds_uniform n b hn1 _ (by omega)]
  have hcm : create_mosaic (some img) n 1 none shuffles choices =
      (mosaicPass n (bnds (shapeH img) n) (bnds (shapeW img) n)
        (shapeH img) (shapeW img) none shuffles choices 0 img).map some := by
    simp only [create_mosaic, poolTilesSel]
    rw [if_neg (by omega)]
    have h1max : ((max 1 1 : Int)).toNat = 1 := rfl
    have hr1 : List.range 1 = [0] := rfl
    rw [h1max, hr1]
    simp only [List.foldlM_cons, List.foldlM_nil]
    rw [except_bind_pure]
  -- reading the cells back returns exactly the placed tiles
  have hextract : extract_tiles_from_image
      (gridAssemble n.toNat a b
        (fun idx => (extract_tiles_from_image img n).getD ((shuffles 0).getD idx 0) emptyImg)
        (n.toNat * n.toNat)) n =
      (List.range (n.toNat * n.toNat)).map
        (fun idx => (extract_tiles_from_image img n).getD ((shuffles 0).getD idx 0) emptyImg) := by
    rw [extract_eq_map, hRsh, hRsw]
    apply List.ext_getElem
    · simp
    · intro idx h1 h2
      rw [List.getElem_map, List.getElem_map, List.getElem_range]
      have hidx : idx < n.toNat * n.toNat := by simpa using h1
      have hdiv : idx / n.toNat < n.toNat := Nat.div_lt_of_lt_mul hidx
      have hmod : idx % n.toNat < n.toNat := Nat.mod_lt _ hN
      rw [bnds_uniform n a hn1 _ (by omega), bnds_uniform n a hn1 _ (by omega),
        bnds_uniform n b hn1 _ (by omega), bnds_uniform n b hn1 _ (by omega)]
      obtain ⟨hpw, hpa, hpb⟩ := hpick idx hidx
      have hmula : (idx / n.toNat + 1) * a ≤ n.toNat * a :=
        Nat.mul_le_mul_right a (by omega)
      have hmulb : (idx % n.toNat + 1) * b ≤ n.toNat * b :=
        Nat.mul_le_mul_right b (by omega)
      apply img_ext
      · exact wf_readRect _ _ _ _ _ hRwf
      · exact hpw
      · rw [shapeH_readRect, hRsh, hpa, Nat.succ_mul]
        rw [Nat.succ_mul] at hmula
        omega
      · rw [shapeW_readRect, hpb]
        have hRw : (gridAssemble n.toNat a b
            (fun idx => (extract_tiles_from_image img n).getD ((shuffles 0).getD idx 0) emptyImg)
            (n.toNat * n.toNat)).w = n.toNat * b := hRsw
        rw [hRw, Nat.succ_mul]
        rw [Nat.succ_mul] at hmulb
        omega
      · intro u hu v hv
        rw [shapeH_readRect, hRsh, Nat.succ_mul] at hu
        have hu' : u < a := by
          rw [Nat.succ_mul] at hmula
          omega
        have hv' : v < b := by
          rw [shapeW_readRect] at hv
          have hRw : (gridAssemble n.toNat a b
              (fun idx => (extract_tiles_from_image img n).getD ((shuffles 0).getD idx 0) emptyImg)
              (n.toNat * n.toNat)).w = n.toNat * b := hRsw
          rw [hRw, Nat.succ_mul] at hv
          rw [Nat.succ_mul] at hmulb
          omega
        have hu2 : u < min ((idx / n.toNat + 1) * a - idx / n.toNat * a)
            (shapeH (gridAssemble n.toNat a b
              (fun idx => (extract_tiles_from_image img n).getD ((shuffles 0).getD idx 0) emptyImg)
              (n.toNat * n.toNat)) - idx / n.toNat * a) := by
          rw [hRsh, Nat.succ_mul]
          rw [Nat.succ_mul] at hmula
          omega
        have hv2 : v < (idx % n.toNat + 1) * b - idx % n.toNat * b := by
          rw [Nat.succ_mul]
          omega
        rw [px_readRect _ _ _ _ _ _ _ hu2 hv2]
        exact hRpx idx hidx u hu' v hv'
  refine ⟨_, by rw [hcm, hpass]; rfl, ?_⟩
  rw [hextract]
  have hplen : (shuffles 0).length = n.toNat * n.toNat := by
    rw [hperm.length_eq, List.length_range]
  have h1 : (List.range (n.toNat * n.toNat)).map
      (fun idx => (extract_tiles_from_image img n).getD ((shuffles 0).getD idx 0) emptyImg) =
      (shuffles 0).map (fun j => (extract_tiles_from_image img n).getD j emptyImg) := by
    rw [← hplen]
    apply List.ext_getElem
    · simp
    · intro i hi1 hi2
      rw [List.getElem_map, List.getElem_map, List.getElem_range,
        List.getD_eq_getElem (shuffles 0) 0 (by simpa using hi2)]
  have h2 : (List.range (n.toNat * n.toNat)).map
      (fun j => (extract_tiles_from_image img n).getD j emptyImg) =
      extract_tiles_from_image img n := by
    have hlen := extract_length img n
    rw [← hlen]
    exact lGetD_range_map _ emptyImg
  rw [h1]
  have h3 := hperm.map (fun j => (extract_tiles_from_image img n).getD j emptyImg)
  rw [h2] at h3
  exact Multiset.coe_eq_coe.mpr h3

theorem create_mosaic_nopool_perm_witness :
    ∃ R, create_mosaic (some ⟨2, [[1, 2], [3, 4]]⟩) 2 1 none
        (fun _ => [1, 0, 3, 2]) (fun _ _ => 0) = Except.ok (some R) ∧
      (↑(extract_tiles_from_image R 2) : Multiset Img) =
        ↑(extract_tiles_from_image ⟨2, [[1, 2], [3, 4]]⟩ 2) :=
  create_mosaic_nopool_perm ⟨2, [[1, 2], [3, 4]]⟩ 2 1 1
    (fun _ => [1, 0, 3, 2]) (fun _ _ => 0) (by decide) (by decide)
    (by decide) (by decide) (by decide)
